import Mathlib

/-!
# Verification of the oxbed retrieval core

Shallow embedding of the oxbed retrieval engine (chunking, sparse TF
embedding, cosine-similarity vector index, search-hit assembly, context
building and evaluation metrics), translated from the Rust sources:
`src/chunk.rs`, `src/normalization.rs`, `src/embedder.rs`, `src/index.rs`,
`src/search.rs`, `src/stage3.rs`, `src/evaluation.rs`.

Modelling conventions:
* Rust `&str`/`String` values are `List Char`; byte offsets become character
  offsets (the Rust code only ever cuts at UTF-8 character boundaries, so the
  two coordinate systems are order- and boundary-isomorphic).  Where the byte
  length itself is observable (`String::len` in `build_context`) we compute
  the genuine UTF-8 byte length with `Char.utf8Size`.
* `f32` arithmetic is idealised as real arithmetic (`ℝ`).
* `HashMap<String, f32>` sparse vectors are finitely supported functions
  `(List Char) →₀ ℝ`; iteration over a hash map becomes summation over the
  support, which is order-independent exactly because hash-map iteration
  order is unspecified.
* Fallible operations (`usize` underflow panics, out-of-bounds indexing)
  return `Option`/`Except`; `none` / `.error` models the panic.
* Potentially-unbounded `while` loops are translated with an explicit fuel
  parameter large enough for every run; the termination theorems show the
  fuel is never exhausted.
* `Uuid::new_v4()` chunk ids are modelled by the opaque placeholder `""`
  (no property under scrutiny depends on ids generated by the chunker).
* NFKC normalisation (the external `unicode_normalization` collaborator) is
  modelled as the identity on the character stream; it is the identity on
  every ASCII input appearing in the claims.  Likewise `unicode_words`
  (UAX#29 segmentation) is modelled as maximal alphanumeric runs and
  `to_lowercase` as character-wise lowering, both exact on ASCII.
-/

/-- Character-wise lowercasing, model of Rust `str::to_lowercase`. -/
def toLowerStr (l : List Char) : List Char :=
  l.map Char.toLower

/-- Model of Rust `str::contains(&str)`: substring test. -/
def strContains (hay needle : List Char) : Bool :=
  needle.isPrefixOf hay ||
    match hay with
    | [] => false
    | _ :: t => strContains t needle

/-- Model of Rust `str::trim_start`: drop leading whitespace. -/
def trimLeftStr (l : List Char) : List Char :=
  l.dropWhile Char.isWhitespace

/-- Model of Rust `str::trim_end`: drop trailing whitespace. -/
def trimRightStr (l : List Char) : List Char :=
  (l.reverse.dropWhile Char.isWhitespace).reverse

/-- Model of Rust `str::trim`. -/
def trimStr (l : List Char) : List Char :=
  trimRightStr (trimLeftStr l)

/-- Rust `char::is_ascii_whitespace` (space, tab, newline, carriage return,
form feed). -/
def isAsciiWhitespace (c : Char) : Bool :=
  c = ' ' || c = '\t' || c = '\n' || c = '\r' || c = '\x0C'

/-- UTF-8 byte length of a string, model of Rust `String::len`. -/
def byteLen (l : List Char) : ℕ :=
  (l.map Char.utf8Size).sum

/-- State machine of `normalization::normalize` (src/normalization.rs:10-35):
arguments are the remaining input, `last_was_space` and `newline_count`.
The NFKC pass of the source is modelled as the identity (see header). -/
def normalizeGo : List Char → Bool → ℕ → List Char
  | [], _, _ => []
  | c :: t, lastWasSpace, newlineCount =>
    if c = '\r' then normalizeGo t lastWasSpace newlineCount
    else if c = '\n' then
      (if newlineCount < 2 then ['\n'] else []) ++ normalizeGo t true (newlineCount + 1)
    else if c.isWhitespace then
      (if lastWasSpace then [] else [' ']) ++ normalizeGo t true 0
    else c :: normalizeGo t false 0

/-- `normalization::normalize` (src/normalization.rs): collapse whitespace,
cap newline runs at two, then trim.  (Named `normalizeText` because plain
`normalize` is taken by Mathlib.) -/
def normalizeText (input : List Char) : List Char :=
  trimStr (normalizeGo input false 0)

/-- `ChunkStrategy` (src/chunk.rs:24-27). -/
inductive ChunkStrategy where
  | structured
  | fixed
deriving DecidableEq, Repr

/-- `Chunk` (src/chunk.rs:107-114).  The Rust field `end` is a Lean keyword
and is rendered `endPos`. -/
structure Chunk where
  id : String
  doc_id : String
  text : List Char
  start : ℕ
  endPos : ℕ
  strategy : ChunkStrategy
deriving DecidableEq, Repr

/-- `Chunker` configuration (src/chunk.rs:116-123). -/
structure ChunkerConfig where
  strategy : ChunkStrategy
  max_tokens : ℕ
  overlap : ℕ
  split_on_double_newline : Bool
  dedupe_segments : Bool
  chunk_separators : List (List Char)

/-- Push an optional chunk onto a result list (`results.push` under
`if let Some(chunk)`). -/
def consOpt (o : Option Chunk) (l : List Chunk) : List Chunk :=
  match o with
  | some c => c :: l
  | none => l

/-- `Chunker::segment` (src/chunk.rs:253-290).  The `seen` hash set is a list
of already-seen trimmed segments; returns the optional chunk and the updated
set.  `Uuid::new_v4()` is the placeholder `""`. -/
def Chunker.segment (cfg : ChunkerConfig) (absoluteStart : ℕ) (docId : String)
    (seg : List Char) (strategy : ChunkStrategy) (seen : List (List Char)) :
    Option Chunk × List (List Char) :=
  if trimStr seg = [] then (none, seen)
  else if cfg.dedupe_segments && decide (trimStr seg ∈ seen) then (none, seen)
  else
    (some { id := "", doc_id := docId, text := normalizeText (trimStr seg),
            start := absoluteStart + (seg.length - (trimLeftStr seg).length),
            endPos := absoluteStart + (trimRightStr seg).length,
            strategy := strategy },
     if cfg.dedupe_segments then trimStr seg :: seen else seen)

/-- `skip_newlines` (src/chunk.rs:293-303): length of the leading run of
ASCII whitespace (each char's byte length collapses to a char count in the
character coordinate system). -/
def skip_newlines (remainder : List Char) : ℕ :=
  (remainder.takeWhile isAsciiWhitespace).length

/-- First occurrence index of `needle` in `hay`, model of Rust `str::find`
for a non-empty pattern. -/
def firstOccur (needle : List Char) : List Char → Option ℕ
  | [] => if needle.isPrefixOf [] then some 0 else none
  | c :: t =>
    if needle.isPrefixOf (c :: t) then some 0
    else (firstOccur needle t).map (· + 1)

/-- The separator fold of `find_split_length` (src/chunk.rs:309-325):
`best` keeps the leftmost match; a later separator wins only on a strictly
smaller index. -/
def findSplitGo (remaining : List Char) :
    List (List Char) → Option (ℕ × ℕ) → Option (ℕ × ℕ)
  | [], best => best
  | sep :: rest, best =>
    if sep = [] then findSplitGo remaining rest best
    else
      match firstOccur sep remaining with
      | none => findSplitGo remaining rest best
      | some idx =>
        match best with
        | some (bi, bl) =>
          if bi ≤ idx then findSplitGo remaining rest (some (bi, bl))
          else findSplitGo remaining rest (some (idx, sep.length))
        | none => findSplitGo remaining rest (some (idx, sep.length))

/-- `find_split_length` (src/chunk.rs:305-327). -/
def find_split_length (remaining : List Char) (separators : List (List Char)) :
    ℕ × ℕ :=
  (findSplitGo remaining separators none).getD (remaining.length, 0)

/-- Loop body of `Chunker::structured` (src/chunk.rs:159-204) with fuel;
`none` marks fuel exhaustion (the termination theorem shows the initial fuel
is never consumed). -/
def Chunker.structuredGo (cfg : ChunkerConfig) (docId : String)
    (input : List Char) : ℕ → ℕ → List (List Char) → Option (List Chunk)
  | 0, _, _ => none
  | fuel + 1, cursor, seen =>
    if input.length ≤ cursor then some []
    else
      match (if cfg.split_on_double_newline then
               find_split_length (input.drop cursor) cfg.chunk_separators
             else ((input.drop cursor).length, 0)) with
      | (splitLen, sepLen) =>
        match Chunker.segment cfg cursor docId ((input.drop cursor).take splitLen)
            .structured seen with
        | (oc, seen') =>
          if splitLen = (input.drop cursor).length then some (consOpt oc [])
          else
            (Chunker.structuredGo cfg docId input fuel
                (cursor + splitLen + sepLen +
                  skip_newlines (input.drop (cursor + splitLen + sepLen)))
                seen').map (consOpt oc)

/-- `Chunker::structured` (src/chunk.rs:159-204). -/
def Chunker.structured (cfg : ChunkerConfig) (docId : String)
    (input : List Char) : Option (List Chunk) :=
  Chunker.structuredGo cfg docId input (input.length + 1) 0 []

/-- State machine of `token_positions` (src/chunk.rs:334-359): remaining
input, current index, and the start of the in-progress token. -/
def tokenPosGo : List Char → ℕ → Option ℕ → List (ℕ × ℕ)
  | [], _, none => []
  | [], n, some s => [(s, n)]
  | c :: t, n, none =>
    if c.isWhitespace then tokenPosGo t (n + 1) none
    else tokenPosGo t (n + 1) (some n)
  | c :: t, n, some s =>
    if c.isWhitespace then (s, n) :: tokenPosGo t (n + 1) none
    else tokenPosGo t (n + 1) (some s)

/-- `token_positions` (src/chunk.rs:334-359): half-open `[start, end)`
boundaries of the maximal non-whitespace runs. -/
def token_positions (input : List Char) : List (ℕ × ℕ) :=
  tokenPosGo input 0 none

/-- Loop body of `Chunker::fixed` (src/chunk.rs:206-251) with fuel.  `none`
covers both fuel exhaustion and the `tokens[end - 1]` panic that the source
hits when `end = 0` (i.e. `max_tokens = 0` on the first iteration). -/
def Chunker.fixedGo (cfg : ChunkerConfig) (docId : String) (input : List Char)
    (tokens : List (ℕ × ℕ)) : ℕ → ℕ → List (List Char) → Option (List Chunk)
  | 0, _, _ => none
  | fuel + 1, cursor, seen =>
    if cursor < tokens.length then
      if min (cursor + cfg.max_tokens) tokens.length = 0 then none
      else
        match Chunker.segment cfg (tokens.getD cursor (0, 0)).1 docId
            ((input.drop (tokens.getD cursor (0, 0)).1).take
              ((tokens.getD (min (cursor + cfg.max_tokens) tokens.length - 1)
                  (0, 0)).2 -
                (tokens.getD cursor (0, 0)).1)) .fixed seen with
        | (oc, seen') =>
          if min (cursor + cfg.max_tokens) tokens.length = tokens.length then
            some (consOpt oc [])
          else
            (Chunker.fixedGo cfg docId input tokens fuel
                (cursor + max (cfg.max_tokens - cfg.overlap) 1) seen').map
              (consOpt oc)
    else some []

/-- `Chunker::fixed` (src/chunk.rs:206-251); the step
`max(max_tokens - overlap, 1)` uses truncated (saturating) subtraction just
as `usize::saturating_sub` does. -/
def Chunker.fixed (cfg : ChunkerConfig) (docId : String) (input : List Char) :
    Option (List Chunk) :=
  if token_positions input = [] then some []
  else
    Chunker.fixedGo cfg docId input (token_positions input)
      ((token_positions input).length + 1) 0 []

/-- `Chunker::chunk` (src/chunk.rs:144-157). -/
def Chunker.chunk (cfg : ChunkerConfig) (docId : String) (input : List Char) :
    Option (List Chunk) :=
  match cfg.strategy with
  | .structured => Chunker.structured cfg docId input
  | .fixed => Chunker.fixed cfg docId input

/-- `truncate` (src/stage3.rs:192-200): take at most `max` characters. -/
def truncate (text : List Char) (max : ℕ) : List Char :=
  if max = 0 then [] else text.take max

/-- The `"\n---\n"` delimiter of `build_context`. -/
def contextDelim : List Char := '\n' :: '-' :: '-' :: '-' :: '\n' :: []

/-- Loop of `build_context` (src/stage3.rs:167-190) over the trimmed-or-not
hit texts.  The budget check compares the UTF-8 *byte* length of the
accumulated context (Rust `String::len`), while `truncate` counts
*characters*.  The subtraction `budget - context.len()` happens after the
delimiter push; when the delimiter pushes the byte length past the budget
the `usize` subtraction underflows, modelled by `none`. -/
def buildContextGo : List (List Char) → List Char → ℕ → Option (List Char)
  | [], ctx, _ => some ctx
  | h :: rest, ctx, budget =>
    if budget ≤ byteLen ctx then some ctx
    else
      let addition := trimStr h
      if addition = [] then buildContextGo rest ctx budget
      else
        let ctx2 := if ctx = [] then ctx else ctx ++ contextDelim
        if byteLen ctx2 ≤ budget then
          buildContextGo rest (ctx2 ++ truncate addition (budget - byteLen ctx2))
            budget
        else none

/-- `build_context` (src/stage3.rs:167-190), over the chunk texts of the
reranked hits. -/
def build_context (hits : List (List Char)) (budget : ℕ) : Option (List Char) :=
  buildContextGo hits [] budget

/-- Input of the chunking test case of C4. -/
def c4Input : List Char := "alpha\n\nbeta\n\nalpha".toList

/-- A well-formed token boundary: non-empty range inside the input whose
first character is not whitespace. -/
def TokSpec (input : List Char) (p : ℕ × ℕ) : Prop :=
  p.1 < p.2 ∧ p.2 ≤ input.length ∧
    ∃ c, input[p.1]? = some c ∧ c.isWhitespace = false

/-- `SparseVector` (src/embedder.rs:18-19): a `HashMap<String, f32>`,
idealised as a finitely supported function from token strings to reals. -/
abbrev SparseVector := (List Char) →₀ ℝ

/-- `IndexEntry` (src/index.rs:13-17). -/
structure IndexEntry where
  chunk_id : String
  doc_id : String
  vector : SparseVector

/-- The dot-product loop of `cosine_similarity` (src/index.rs:103-107):
iterate over the entries of `a`, multiplying with the matching entries of
`b` (a missing key contributes nothing, matching `b.get(token)` = `None`). -/
noncomputable def sparseDot (a b : SparseVector) : ℝ :=
  a.sum fun t av => av * b t

/-- The sum-of-squares accumulators `norm_a` / `norm_b`
(src/index.rs:94-99). -/
noncomputable def normSq (a : SparseVector) : ℝ :=
  a.sum fun _ v => v * v

open Classical in
/-- `cosine_similarity` (src/index.rs:87-109): 0 when either norm is zero,
otherwise `dot / (sqrt norm_a * sqrt norm_b)`. -/
noncomputable def cosine_similarity (a b : SparseVector) : ℝ :=
  if normSq a = 0 ∨ normSq b = 0 then 0
  else sparseDot a b / (Real.sqrt (normSq a) * Real.sqrt (normSq b))

/-- The descending comparison of `search`'s `sort_by` (src/index.rs:77-81):
`a` precedes `b` when `b.1 partial_cmp a.1` is not `Greater`, i.e. when
`b.2 ≤ a.2`. -/
def scoreGe (a b : ℕ × ℝ) : Prop :=
  b.2 ≤ a.2

noncomputable instance : DecidableRel scoreGe :=
  fun a b => inferInstanceAs (Decidable (b.2 ≤ a.2))

instance : IsTotal (ℕ × ℝ) scoreGe :=
  ⟨fun a b => le_total b.2 a.2⟩

instance : IsTrans (ℕ × ℝ) scoreGe :=
  ⟨fun _ _ _ h1 h2 => le_trans h2 h1⟩

/-- `VectorIndex::search` (src/index.rs:51-84): empty-query short-circuit
(`query.is_empty()` = empty support), score every entry by index, keep the
strictly positive scores, sort descending (Rust's stable `sort_by` with
ties answering `Equal` is insertion sort under the total relation
`scoreGe`), truncate to `top_k`. -/
noncomputable def VectorIndex.search (entries : List IndexEntry)
    (query : SparseVector) (topK : ℕ) : List (ℕ × ℝ) :=
  if query.support = ∅ then []
  else
    (((entries.enum.map fun ie => (ie.1, cosine_similarity query ie.2.vector)).filter
        fun p => decide (0 < p.2)).insertionSort scoreGe).take topK

/-- The single-token vector `{"a" ↦ 1}` used for the tie counterexample. -/
noncomputable def vA : SparseVector := Finsupp.single ['a'] 1

/-- Two index entries with identical vectors — both score exactly 1 against
the query `vA`. -/
noncomputable def entriesCE : List IndexEntry :=
  [⟨"c1", "d1", vA⟩, ⟨"c2", "d2", vA⟩]

/-- Run accumulator for the `unicode_words` model: maximal alphanumeric runs
(`acc` holds the current run, reversed). -/
def wordRunsGo : List Char → List Char → List (List Char)
  | [], acc => if acc = [] then [] else [acc.reverse]
  | c :: t, acc =>
    if c.isAlphanum then wordRunsGo t (c :: acc)
    else if acc = [] then wordRunsGo t [] else acc.reverse :: wordRunsGo t []

/-- Model of `str::unicode_words` (UAX#29 word segmentation), as maximal
alphanumeric runs — exact on the ASCII inputs of the claims. -/
def wordRuns (text : List Char) : List (List Char) :=
  wordRunsGo text []

/-- `tokenize` (src/embedder.rs:258-263): unicode words, lowercased. -/
def tokenize (text : List Char) : List (List Char) :=
  (wordRuns text).map toLowerStr

/-- `normalize_counts` (src/embedder.rs:217-235) over an association list of
token counts.  The `f32` total of the non-negative integer counts is zero
exactly when the natural-number total is, so the zero test is done in ℕ. -/
noncomputable def normalize_counts (counts : List (List Char × ℕ)) :
    SparseVector :=
  if (counts.map Prod.snd).sum = 0 then 0
  else
    (counts.map fun p =>
      Finsupp.single p.1 ((p.2 : ℝ) / ((counts.map Prod.snd).sum : ℝ))).sum

/-- `TfEmbedder::embed` (src/embedder.rs:117-144): count tokens (the
`HashMap` of counts is the association list keyed by the deduplicated token
list), `retain` the counts reaching `min_freq`, then normalise. -/
noncomputable def TfEmbedder.embed (min_freq : ℕ) (text : List Char) :
    SparseVector :=
  normalize_counts
    (((tokenize text).dedup.map fun t => (t, (tokenize text).count t)).filter
      fun p => decide (min_freq ≤ p.2))

/-- `Document` (src/state.rs:43-48). -/
structure Document where
  id : String
  path : String
  hash : String
  token_count : ℕ

/-- The corpus `State` (src/state.rs:34-38). -/
structure State where
  documents : List Document
  chunks : List Chunk
  index_entries : List IndexEntry

/-- `State::find_chunk` (src/state.rs:131-138). -/
def State.find_chunk (st : State) (chunk_id : String) : Option Chunk :=
  st.chunks.find? fun c => c.id == chunk_id

/-- `State::find_document` (src/state.rs:140-148). -/
def State.find_document (st : State) (doc_id : String) : Option Document :=
  st.documents.find? fun d => d.id == doc_id

/-- `SearchHit` (src/search.rs:16-21). -/
structure SearchHit where
  chunk : Chunk
  document : Document
  score : ℝ

/-- The configuration knobs `search_hits` reads:
`stage1.embedder.normalize_query` and `stage1.search.score_threshold`. -/
structure SearchConfig where
  normalize_query : Bool
  score_threshold : ℝ

/-- The resolution loop of `search_hits` (src/search.rs:54-82): look up the
entry by index, then the chunk and document records; any miss aborts with
the corresponding `context` message. -/
def resolveMatches (st : State) (index : List IndexEntry) :
    List (ℕ × ℝ) → Except String (List SearchHit)
  | [] => .ok []
  | (idx, score) :: rest =>
    match index[idx]? with
    | none => .error "missing index entry for search result"
    | some entry =>
      match st.find_chunk entry.chunk_id with
      | none => .error "chunk metadata missing"
      | some chunk =>
        match st.find_document entry.doc_id with
        | none => .error "document metadata missing"
        | some document =>
          match resolveMatches st index rest with
          | .error e => .error e
          | .ok hits =>
            .ok ({ chunk := chunk, document := document, score := score } :: hits)

/-- The threshold-filtered match list computed inside `search_hits`
(src/search.rs:31-53): optional query normalisation, embed, index search,
inclusive score filter (`score >= threshold`). -/
noncomputable def filtered_matches (embed : List Char → SparseVector)
    (query : List Char) (topK : ℕ) (cfg : SearchConfig)
    (index : List IndexEntry) : List (ℕ × ℝ) :=
  (VectorIndex.search index
      (embed (if cfg.normalize_query then normalizeText query else query))
      topK).filter
    fun m => decide (cfg.score_threshold ≤ m.2)

/-- `search_hits` (src/search.rs:23-84). -/
noncomputable def search_hits (embed : List Char → SparseVector)
    (query : List Char) (topK : ℕ) (cfg : SearchConfig) (st : State)
    (index : List IndexEntry) : Except String (List SearchHit) :=
  resolveMatches st index (filtered_matches embed query topK cfg index)

/-- A match is resolvable when its entry index is in range and both the
chunk id and the document id resolve against the corpus state. -/
def resolves (st : State) (index : List IndexEntry) (m : ℕ × ℝ) : Prop :=
  ∃ entry, index[m.1]? = some entry ∧
    (st.find_chunk entry.chunk_id).isSome ∧
    (st.find_document entry.doc_id).isSome

/-- The trivial embedder used to instantiate the search-hit theorems. -/
noncomputable def embedZero : List Char → SparseVector := fun _ => 0

/-- A search configuration with query normalisation off and threshold 0. -/
noncomputable def cfgZero : SearchConfig := ⟨false, 0⟩

/-- The empty corpus state. -/
def stEmpty : State := ⟨[], [], []⟩

/-- An embedder that answers the query vector `vA`, used to exercise a
dangling index entry against an empty corpus. -/
noncomputable def embedVA : List Char → SparseVector := fun _ => vA

/-- The inner term loop of `evaluate_query` (src/evaluation.rs:174-185):
walk the expected terms with their satisfaction flags; a not-yet-satisfied
term contained in the chunk text becomes satisfied and marks the hit
relevant. -/
def markChunk (chunkText : List Char) :
    List (List Char) → List Bool → List Bool × Bool
  | term :: ts, sat :: ss =>
    match markChunk chunkText ts ss with
    | (rest, rel) =>
      ((sat || (!sat && strContains chunkText term)) :: rest,
       rel || (!sat && strContains chunkText term))
  | _, _ => ([], false)

/-- The hit loop of `evaluate_query` (src/evaluation.rs:169-193): returns
the final satisfaction flags, the per-hit relevance flags, and the 1-based
rank of the first relevant hit. -/
def evalGo (terms : List (List Char)) :
    List (List Char) → List Bool → ℕ → List Bool × List Bool × Option ℕ
  | [], sat, _ => (sat, [], none)
  | h :: hs, sat, rank =>
    match markChunk (toLowerStr h) terms sat with
    | (sat', rel) =>
      match evalGo terms hs sat' (rank + 1) with
      | (finalSat, flags, fr) =>
        (finalSat, rel :: flags, if rel then some (rank + 1) else fr)

open Classical in
/-- `compute_ndcg` (src/evaluation.rs:223-252): discounted gain
`1 / log2(rank + 1)` at each relevant rank, against the ideal placement at
ranks `1..relevant`. -/
noncomputable def compute_ndcg (flags : List Bool) (relevant : ℕ) : ℝ :=
  if relevant = 0 then 0
  else
    if ((List.range relevant).map fun idx : ℕ =>
        1 / Real.logb 2 ((idx : ℝ) + 1 + 1)).sum = 0 then 0
    else
      (flags.enum.map fun p =>
          if p.2 then 1 / Real.logb 2 ((p.1 : ℝ) + 1 + 1) else 0).sum /
        ((List.range relevant).map fun idx : ℕ =>
          1 / Real.logb 2 ((idx : ℝ) + 1 + 1)).sum

/-- `evaluate_query` (src/evaluation.rs:153-221), reduced to its metric
outputs `(recall, mrr, ndcg)` over the expected terms and the retrieved
chunk texts (the surrounding `QueryReport` bookkeeping — name, top_k, hit
counts, latency — carries no logic). -/
noncomputable def evaluate_query (expected_terms : List (List Char))
    (hitTexts : List (List Char)) : ℝ × ℝ × ℝ :=
  match evalGo (expected_terms.map toLowerStr) hitTexts
      (List.replicate (expected_terms.map toLowerStr).length false) 0 with
  | (sat, flags, fr) =>
    ((if (expected_terms.map toLowerStr).length = 0 then 0
      else (sat.count true : ℝ) / ((expected_terms.map toLowerStr).length : ℝ)),
     (match fr with
      | some r => 1 / (r : ℝ)
      | none => 0),
     compute_ndcg flags (sat.count true))

/-! ## Theorems about the embedded definitions -/

lemma isPrefixOf_length_le :
    ∀ l1 l2 : List Char, l1.isPrefixOf l2 = true → l1.length ≤ l2.length := by
  intro l1
  induction l1 with
  | nil => intro l2 _; simp
  | cons a t ih =>
    intro l2 h
    cases l2 with
    | nil => simp [List.isPrefixOf] at h
    | cons b s =>
      simp only [List.isPrefixOf, Bool.and_eq_true] at h
      have := ih s h.2
      simp only [List.length_cons]
      omega

lemma firstOccur_bound (needle : List Char) :
    ∀ hay i, firstOccur needle hay = some i → i + needle.length ≤ hay.length := by
  intro hay
  induction hay with
  | nil =>
    intro i h
    simp only [firstOccur] at h
    split at h
    · rename_i hp
      have hlen := isPrefixOf_length_le _ _ hp
      simp only [Option.some.injEq] at h
      simp only [List.length_nil] at hlen ⊢
      omega
    · simp at h
  | cons c t ih =>
    intro i h
    simp only [firstOccur] at h
    split at h
    · rename_i hp
      have hlen := isPrefixOf_length_le _ _ hp
      simp only [Option.some.injEq] at h
      subst h
      simpa using hlen
    · rcases Option.map_eq_some'.mp h with ⟨j, hj, hji⟩
      have := ih j hj
      subst hji
      simp only [List.length_cons]
      omega

lemma findSplitGo_bound (remaining : List Char) :
    ∀ seps best,
      (∀ x y, best = some (x, y) → 1 ≤ y ∧ x + y ≤ remaining.length) →
      ∀ x y, findSplitGo remaining seps best = some (x, y) →
        1 ≤ y ∧ x + y ≤ remaining.length := by
  intro seps
  induction seps with
  | nil => intro best hb x y h; exact hb x y h
  | cons sep rest ih =>
    intro best hb x y h
    rw [findSplitGo] at h
    split at h
    · exact ih best hb x y h
    · rename_i hsep
      have hsl : 1 ≤ sep.length := by
        cases sep with
        | nil => exact absurd rfl hsep
        | cons a b => simp
      split at h
      · exact ih best hb x y h
      · rename_i idx ho
        have hidx := firstOccur_bound sep remaining idx ho
        split at h
        · rename_i bi bl hbest
          split at h
          · exact ih _ hb x y h
          · refine ih _ ?_ x y h
            intro u v huv
            simp only [Option.some.injEq, Prod.mk.injEq] at huv
            obtain ⟨h1, h2⟩ := huv
            subst h1; subst h2
            exact ⟨hsl, hidx⟩
        · refine ih _ ?_ x y h
          intro u v huv
          simp only [Option.some.injEq, Prod.mk.injEq] at huv
          obtain ⟨h1, h2⟩ := huv
          subst h1; subst h2
          exact ⟨hsl, hidx⟩

lemma find_split_length_bound (remaining : List Char) (seps : List (List Char)) :
    (find_split_length remaining seps).1 + (find_split_length remaining seps).2 ≤
        remaining.length ∧
      ((find_split_length remaining seps).1 ≠ remaining.length →
        1 ≤ (find_split_length remaining seps).2) := by
  unfold find_split_length
  rcases h : findSplitGo remaining seps none with _ | ⟨x, y⟩
  · simp
  · have := findSplitGo_bound remaining seps none (by intro x y hxy; cases hxy) x y h
    simp only [Option.getD_some]
    exact ⟨this.2, fun _ => this.1⟩

lemma structuredGo_isSome (cfg : ChunkerConfig) (docId : String) (input : List Char) :
    ∀ fuel cursor seen, input.length - cursor < fuel →
      (Chunker.structuredGo cfg docId input fuel cursor seen).isSome := by
  intro fuel
  induction fuel with
  | zero => intro cursor seen h; omega
  | succ fuel ih =>
    intro cursor seen h
    rw [Chunker.structuredGo]
    split
    · simp
    · rename_i hcur
      push_neg at hcur
      split
      · rename_i splitLen sepLen hsl
        split
        · rename_i oc seen' hseg
          split
          · simp
          · rename_i hne
            rw [Option.isSome_map']
            apply ih
            have hdl : (input.drop cursor).length = input.length - cursor :=
              List.length_drop cursor input
            by_cases hs : cfg.split_on_double_newline
            · rw [if_pos hs] at hsl
              obtain ⟨hb1, hb2⟩ :=
                find_split_length_bound (input.drop cursor) cfg.chunk_separators
              rw [hsl] at hb1 hb2
              rw [hdl] at hb1 hb2
              simp only at hb1 hb2
              have h1 : 1 ≤ sepLen := by
                apply hb2
                intro hcontra
                exact hne (by rw [hcontra, hdl])
              omega
            · rw [if_neg hs] at hsl
              simp only [Prod.mk.injEq] at hsl
              exact absurd hsl.1.symm hne

lemma fixedGo_isSome (cfg : ChunkerConfig) (docId : String) (input : List Char)
    (tokens : List (ℕ × ℕ)) (hmt : 1 ≤ cfg.max_tokens) :
    ∀ fuel cursor seen, tokens.length - cursor < fuel →
      (Chunker.fixedGo cfg docId input tokens fuel cursor seen).isSome := by
  intro fuel
  induction fuel with
  | zero => intro cursor seen h; omega
  | succ fuel ih =>
    intro cursor seen h
    rw [Chunker.fixedGo]
    split
    · rename_i hcur
      split
      · rename_i he
        exfalso
        omega
      · split
        · rename_i oc seen' hseg
          split
          · simp
          · rw [Option.isSome_map']
            apply ih
            have : 1 ≤ max (cfg.max_tokens - cfg.overlap) 1 := le_max_right _ _
            omega
    · simp

/-- **C7** (amended): for every input text and chunker configuration,
`Chunker::chunk` terminates and returns a finite chunk sequence, except in
the degenerate Fixed configuration `max_tokens = 0` (where the source
indexes `tokens[end - 1]` with `end = 0` and panics on any input containing
a token).  `isSome` asserts that the model's fuel is never exhausted (the
loops terminate) and that the panic marker is never produced. -/
theorem claim_c7_theorem (cfg : ChunkerConfig) (docId : String) (input : List Char) :
    (Chunker.chunk cfg docId input).isSome = true ∨
      (cfg.strategy = ChunkStrategy.fixed ∧ cfg.max_tokens = 0) := by
  cases hst : cfg.strategy with
  | structured =>
    left
    have hchunk : Chunker.chunk cfg docId input = Chunker.structured cfg docId input := by
      unfold Chunker.chunk
      rw [hst]
    rw [hchunk]
    exact structuredGo_isSome cfg docId input (input.length + 1) 0 [] (by omega)
  | fixed =>
    rcases Nat.eq_zero_or_pos cfg.max_tokens with hmt | hmt
    · right; exact ⟨by simp [hst], hmt⟩
    · left
      have hchunk : Chunker.chunk cfg docId input = Chunker.fixed cfg docId input := by
        unfold Chunker.chunk
        rw [hst]
      rw [hchunk]
      unfold Chunker.fixed
      split
      · rfl
      · exact fixedGo_isSome cfg docId input (token_positions input) hmt
          ((token_positions input).length + 1) 0 [] (by omega)

/-- **C7** (counterexample): the claim as stated — termination returning a
chunk sequence for *every* configuration — fails at the Fixed strategy with
`max_tokens = 0` on input `"a"`: the source evaluates `tokens[end - 1]`
with `end = 0`, panicking (usize underflow / out-of-bounds index). -/
theorem claim_c7_counterexample :
    (Chunker.chunk ⟨ChunkStrategy.fixed, 0, 0, true, true, []⟩ "doc" ['a']).isSome
      = false := by decide

/-- **C4** (amended): with the separator list `["\n\n"]` (the one exercised
by the source's own test; the claim's universal quantification over all
separator lists fails, see the counterexample), Structured chunking of
`"alpha\n\nbeta\n\nalpha"` with dedup enabled yields exactly the two chunks
`"alpha"` (bytes 0..5) and `"beta"` (bytes 7..11); the second `"alpha"` is
removed by per-call deduplication. -/
theorem claim_c4_theorem :
    Chunker.chunk ⟨ChunkStrategy.structured, 200, 32, true, true, [['\n', '\n']]⟩
        "doc" c4Input =
      some [⟨"", "doc", "alpha".toList, 0, 5, ChunkStrategy.structured⟩,
            ⟨"", "doc", "beta".toList, 7, 11, ChunkStrategy.structured⟩] := by
  decide

/-- **C4** (counterexample): the claim quantifies over *every* configured
separator list, but with the empty separator list the same input produces a
single chunk (the whole text), not 2. -/
theorem claim_c4_counterexample :
    (Chunker.chunk ⟨ChunkStrategy.structured, 200, 32, true, true, []⟩ "doc"
        c4Input).map List.length = some 1 := by decide

/-- **C2** (code bug): `build_context` is *not* total.  With budget 6 and
trimmed hit texts `"abcd"` and `"xy"`, after the first hit the context holds
4 bytes (< 6), the loop then pushes the 5-byte delimiter `"\n---\n"`
reaching 9 bytes, and computes `budget - context.len() = 6 - 9`, which
underflows `usize` (panic in debug builds; in release the wrapped value lets
the context exceed the budget).  `none` is the model's underflow marker. -/
theorem claim_c2_theorem :
    build_context ["abcd".toList, "xy".toList] 6 = none := by decide

lemma tokenPosGo_spec (input : List Char) :
    ∀ t n st, input.drop n = t →
      (∀ s, st = some s →
        s < n ∧ ∃ c, input[s]? = some c ∧ c.isWhitespace = false) →
      n ≤ input.length →
      (∀ p ∈ tokenPosGo t n st, TokSpec input p ∧ st.getD n ≤ p.1) ∧
        (tokenPosGo t n st).Pairwise (fun p q => p.2 ≤ q.1) := by
  intro t
  induction t with
  | nil =>
    intro n st hdrop hst hn
    cases st with
    | none => simp [tokenPosGo]
    | some s =>
      obtain ⟨hs, c, hc, hw⟩ := hst s rfl
      constructor
      · intro p hp
        simp only [tokenPosGo, List.mem_singleton] at hp
        subst hp
        exact ⟨⟨hs, hn, c, hc, hw⟩, le_refl s⟩
      · simp [tokenPosGo]
  | cons ch t ih =>
    intro n st hdrop hst hn
    have hlen : n < input.length := by
      by_contra hc
      rw [List.drop_eq_nil_of_le (by omega)] at hdrop
      exact List.noConfusion hdrop
    have hget : input[n]? = some ch := by
      have h0 : (input.drop n)[0]? = input[n + 0]? := List.getElem?_drop input n 0
      rw [hdrop] at h0
      simpa using h0.symm
    have hdrop' : input.drop (n + 1) = t := by
      have h1 : input.drop (n + 1) = (input.drop n).drop 1 := by
        rw [List.drop_drop, Nat.add_comm]
      rw [h1, hdrop]
      rfl
    cases st with
    | none =>
      rw [tokenPosGo]
      split
      · rename_i hws
        obtain ⟨hmem, hpw⟩ := ih (n + 1) none hdrop' (by intro s hs; cases hs) (by omega)
        refine ⟨?_, hpw⟩
        intro p hp
        obtain ⟨hts, hlb⟩ := hmem p hp
        refine ⟨hts, ?_⟩
        simp only [Option.getD_none] at hlb ⊢
        omega
      · rename_i hws
        rw [Bool.not_eq_true] at hws
        obtain ⟨hmem, hpw⟩ := ih (n + 1) (some n) hdrop'
          (by
            intro s hs
            injection hs with hs
            subst hs
            exact ⟨by omega, ch, hget, hws⟩)
          (by omega)
        refine ⟨?_, hpw⟩
        intro p hp
        obtain ⟨hts, hlb⟩ := hmem p hp
        refine ⟨hts, ?_⟩
        simp only [Option.getD_some] at hlb
        simp only [Option.getD_none]
        omega
    | some s =>
      obtain ⟨hs, c0, hc0, hw0⟩ := hst s rfl
      rw [tokenPosGo]
      split
      · rename_i hws
        obtain ⟨hmem, hpw⟩ := ih (n + 1) none hdrop' (by intro s' hs'; cases hs') (by omega)
        constructor
        · intro p hp
          rcases List.mem_cons.mp hp with hp | hp
          · subst hp
            exact ⟨⟨hs, by omega, c0, hc0, hw0⟩, by simp⟩
          · obtain ⟨hts, hlb⟩ := hmem p hp
            refine ⟨hts, ?_⟩
            simp only [Option.getD_none] at hlb
            simp only [Option.getD_some]
            omega
        · rw [List.pairwise_cons]
          refine ⟨?_, hpw⟩
          intro q hq
          obtain ⟨_, hlb⟩ := hmem q hq
          simp only [Option.getD_none] at hlb
          show n ≤ q.1
          omega
      · rename_i hws
        obtain ⟨hmem, hpw⟩ := ih (n + 1) (some s) hdrop'
          (by
            intro s' hs'
            injection hs' with h
            subst h
            exact ⟨by omega, c0, hc0, hw0⟩)
          (by omega)
        refine ⟨?_, hpw⟩
        intro p hp
        obtain ⟨hts, hlb⟩ := hmem p hp
        refine ⟨hts, ?_⟩
        simpa using hlb

lemma token_positions_spec (input : List Char) :
    (∀ p ∈ token_positions input, TokSpec input p) ∧
      (token_positions input).Pairwise (fun p q => p.2 ≤ q.1) := by
  have h := tokenPosGo_spec input input 0 none (by simp)
    (by intro s hs; cases hs) (by omega)
  exact ⟨fun p hp => (h.1 p hp).1, h.2⟩

lemma token_start_lt_of_lt (input : List Char) (i j : ℕ) (hij : i < j)
    (hj : j < (token_positions input).length) :
    ((token_positions input).getD i (0, 0)).1 <
      ((token_positions input).getD j (0, 0)).1 := by
  obtain ⟨hall, hpw⟩ := token_positions_spec input
  have hi : i < (token_positions input).length := by omega
  rw [List.getD_eq_getElem _ _ hi, List.getD_eq_getElem _ _ hj]
  have hR := List.pairwise_iff_get.mp hpw ⟨i, hi⟩ ⟨j, hj⟩ (Fin.mk_lt_mk.mpr hij)
  have hts := hall ((token_positions input).get ⟨i, hi⟩) (List.get_mem _ _ hi)
  have e1 : (token_positions input).get ⟨i, hi⟩ = (token_positions input)[i] := rfl
  have e2 : (token_positions input).get ⟨j, hj⟩ = (token_positions input)[j] := rfl
  rw [e1, e2] at hR
  rw [e1] at hts
  obtain ⟨h12, _, _⟩ := hts
  omega

lemma segment_emit_start {cfg : ChunkerConfig} {a : ℕ} {docId : String}
    {seg : List Char} {strat : ChunkStrategy} {seen : List (List Char)}
    {ch : Chunk}
    (h : (Chunker.segment cfg a docId seg strat seen).1 = some ch)
    (hhead : ∀ c, seg[0]? = some c → c.isWhitespace = false) :
    ch.start = a := by
  unfold Chunker.segment at h
  split at h
  · simp at h
  · split at h
    · simp at h
    · rename_i hne _
      simp only [Option.some.injEq] at h
      subst h
      show a + (seg.length - (trimLeftStr seg).length) = a
      cases hseg : seg with
      | nil =>
        rw [hseg] at hne
        exact absurd rfl hne
      | cons c0 rest =>
        have hc0 : c0.isWhitespace = false := by
          apply hhead c0
          rw [hseg]
          simp
        unfold trimLeftStr
        rw [List.dropWhile_cons]
        rw [hc0]
        simp

lemma fixedGo_starts (cfg : ChunkerConfig) (docId : String) (input : List Char) :
    ∀ fuel cursor seen l,
      Chunker.fixedGo cfg docId input (token_positions input) fuel cursor seen =
          some l →
      (∀ ch ∈ l, ∃ c, cursor ≤ c ∧ c < (token_positions input).length ∧
          ch.start = ((token_positions input).getD c (0, 0)).1) ∧
        l.Pairwise (fun x y => x.start < y.start) := by
  intro fuel
  induction fuel with
  | zero => intro cursor seen l h; cases h
  | succ fuel ih =>
    intro cursor seen l h
    rw [Chunker.fixedGo] at h
    split at h
    · rename_i hcur
      split at h
      · cases h
      · rename_i he
        split at h
        rename_i oc seen' hseg
        -- head start: a chunk emitted by this iteration starts at the
        -- current token's start position, because the candidate slice
        -- begins at a non-whitespace character
        have hmemtok : (token_positions input).getD cursor (0, 0) ∈
            token_positions input := by
          rw [List.getD_eq_getElem _ _ hcur]
          exact List.getElem_mem hcur
        have htok := (token_positions_spec input).1 _ hmemtok
        have hstart : ∀ ch, oc = some ch →
            ch.start = ((token_positions input).getD cursor (0, 0)).1 := by
          intro ch hoc
          have hoc1 := congrArg Prod.fst hseg
          rw [hoc] at hoc1
          apply segment_emit_start hoc1
          intro c hc
          rcases Nat.eq_zero_or_pos
              (((token_positions input).getD
                  (min (cursor + cfg.max_tokens) (token_positions input).length - 1)
                  (0, 0)).2 -
                ((token_positions input).getD cursor (0, 0)).1) with hk | hk
          · rw [hk] at hc
            simp at hc
          · rw [List.getElem?_take, if_pos hk, List.getElem?_drop,
              Nat.add_zero] at hc
            obtain ⟨h12, hle, c0, hc0, hw0⟩ := htok
            rw [hc0] at hc
            injection hc with hc
            subst hc
            exact hw0
        split at h
        · rename_i hend
          injection h with h
          subst h
          rcases hoc : oc with _ | ch
          · simp [consOpt, hoc]
          ·
            constructor
            · intro ch' hch'
              simp only [consOpt, hoc, List.mem_singleton] at hch'
              rw [hch']
              exact ⟨cursor, le_refl _, hcur, hstart ch hoc⟩
            · simp [consOpt, hoc]
        · rename_i hend
          rcases Option.map_eq_some'.mp h with ⟨l', hl', hcons⟩
          obtain ⟨ihmem, ihpw⟩ := ih _ seen' l' hl'
          subst hcons
          have hstep : 1 ≤ max (cfg.max_tokens - cfg.overlap) 1 := le_max_right _ _
          rcases hoc : oc with _ | ch
          · simp only [consOpt, hoc]
            refine ⟨?_, ihpw⟩
            intro ch hch
            obtain ⟨c, hc1, hc2, hc3⟩ := ihmem ch hch
            exact ⟨c, by omega, hc2, hc3⟩
          ·
            simp only [consOpt, hoc]
            constructor
            · intro ch' hch'
              rcases List.mem_cons.mp hch' with h' | h'
              · rw [h']
                exact ⟨cursor, le_refl _, hcur, hstart ch hoc⟩
              · obtain ⟨c, hc1, hc2, hc3⟩ := ihmem ch' h'
                exact ⟨c, by omega, hc2, hc3⟩
            · rw [List.pairwise_cons]
              refine ⟨?_, ihpw⟩
              intro ch' hch'
              obtain ⟨c, hc1, hc2, hc3⟩ := ihmem ch' hch'
              rw [hstart ch hoc, hc3]
              exact token_start_lt_of_lt input cursor c (by omega) hc2
    · injection h with h
      subst h
      refine ⟨?_, List.Pairwise.nil⟩
      intro ch hch
      exact absurd hch (List.not_mem_nil ch)

/-- **C5**: for every input text and every Fixed-chunker configuration, the
start offsets of the chunk sequence returned by Fixed chunking are strictly
increasing.  (When the source panics — `max_tokens = 0` on a non-empty token
list — no sequence is returned and `getD` supplies `[]`, for which the
property holds vacuously.) -/
theorem claim_c5_theorem (cfg : ChunkerConfig) (docId : String)
    (input : List Char) :
    (((Chunker.fixed cfg docId input).getD []).map Chunk.start).Pairwise (· < ·) := by
  rw [List.pairwise_map]
  rcases hfx : Chunker.fixed cfg docId input with _ | l
  · simp
  · simp only [Option.getD_some]
    unfold Chunker.fixed at hfx
    split at hfx
    · injection hfx with h
      subst h
      exact List.Pairwise.nil
    · exact (fixedGo_starts cfg docId input _ 0 [] l hfx).2

lemma sparseDot_comm (a b : SparseVector) : sparseDot a b = sparseDot b a := by
  unfold sparseDot
  rw [Finsupp.sum, Finsupp.sum]
  have h1 : ∑ t ∈ a.support, a t * b t = ∑ t ∈ a.support ∪ b.support, a t * b t := by
    apply Finset.sum_subset Finset.subset_union_left
    intro x _ hnx
    rw [Finsupp.not_mem_support_iff.mp hnx, zero_mul]
  have h2 : ∑ t ∈ b.support, b t * a t = ∑ t ∈ a.support ∪ b.support, b t * a t := by
    apply Finset.sum_subset Finset.subset_union_right
    intro x _ hnx
    rw [Finsupp.not_mem_support_iff.mp hnx, zero_mul]
  rw [h1, h2]
  exact Finset.sum_congr rfl fun x _ => mul_comm _ _

/-- **C3**: cosine similarity as computed by the index is symmetric.  (The
`f32` accumulations are idealised as real arithmetic; symmetry of the exact
dot product and of the norm product gives the claim.) -/
theorem claim_c3_theorem (a b : SparseVector) :
    cosine_similarity a b = cosine_similarity b a := by
  unfold cosine_similarity
  by_cases h : normSq a = 0 ∨ normSq b = 0
  · rw [if_pos h, if_pos (Or.symm h)]
  · rw [if_neg h, if_neg fun hc => h (Or.symm hc)]
    rw [sparseDot_comm, mul_comm]

/-- **C1** (amended): `VectorIndex::search` returns at most `top_k` pairs,
sorted in *non-increasing* score order (the claim's "strictly descending"
fails on exact ties, which the stable sort preserves — see the
counterexample), every returned score is strictly positive (scores ≤ 0 are
discarded before sorting), and the empty query vector yields the empty
result. -/
theorem claim_c1_theorem (entries : List IndexEntry) (query : SparseVector)
    (topK : ℕ) :
    (VectorIndex.search entries query topK).length ≤ topK ∧
      (VectorIndex.search entries query topK).Sorted scoreGe ∧
      (∀ p ∈ VectorIndex.search entries query topK, 0 < p.2) ∧
      VectorIndex.search entries (0 : SparseVector) topK = [] := by
  refine ⟨?_, ?_, ?_, ?_⟩
  · unfold VectorIndex.search
    split
    · simp
    · exact List.length_take_le _ _
  · unfold VectorIndex.search
    split
    · simp
    · exact List.Pairwise.sublist (List.take_sublist _ _)
        (List.sorted_insertionSort scoreGe _)
  · intro p hp
    unfold VectorIndex.search at hp
    split at hp
    · simp at hp
    · have hp2 := List.take_subset _ _ hp
      have hp3 := (List.perm_insertionSort scoreGe _).subset hp2
      have hp4 := (List.mem_filter.mp hp3).2
      exact of_decide_eq_true hp4
  · unfold VectorIndex.search
    rw [if_pos Finsupp.support_zero]

lemma normSq_vA : normSq vA = 1 := by
  unfold normSq vA
  rw [Finsupp.sum_single_index (by simp)]
  norm_num

lemma sparseDot_vA : sparseDot vA vA = 1 := by
  unfold sparseDot vA
  rw [Finsupp.sum_single_index (by simp)]
  rw [Finsupp.single_eq_same]
  norm_num

lemma cosine_vA : cosine_similarity vA vA = 1 := by
  unfold cosine_similarity
  rw [if_neg]
  · rw [sparseDot_vA, normSq_vA, Real.sqrt_one]
    norm_num
  · rw [normSq_vA]
    norm_num

lemma search_entriesCE :
    VectorIndex.search entriesCE vA 5 = [(0, 1), (1, 1)] := by
  unfold VectorIndex.search
  rw [if_neg]
  · have h1 : entriesCE.enum.map
        (fun ie => (ie.1, cosine_similarity vA ie.2.vector)) =
        [(0, cosine_similarity vA vA), (1, cosine_similarity vA vA)] := rfl
    rw [h1, cosine_vA]
    have h2 : [((0 : ℕ), (1 : ℝ)), (1, 1)].filter (fun p => decide (0 < p.2)) =
        [(0, 1), (1, 1)] := by
      norm_num [List.filter]
    rw [h2]
    have h3 : [((0 : ℕ), (1 : ℝ)), (1, 1)].insertionSort scoreGe =
        [(0, 1), (1, 1)] := by
      simp [List.insertionSort, List.orderedInsert, scoreGe]
    rw [h3]
    rfl
  · unfold vA
    rw [Finsupp.support_single_ne_zero _ one_ne_zero]
    simp

/-- **C1** (counterexample): with two identical entries the two scores tie
at 1 and the result `[(0, 1), (1, 1)]` is *not* strictly descending, so the
claim's "sorted strictly descending by score" is false as stated. -/
theorem claim_c1_counterexample :
    ¬ (VectorIndex.search entriesCE vA 5).Sorted
        (fun p q : ℕ × ℝ => q.2 < p.2) := by
  rw [search_entriesCE]
  intro h
  have h01 := (List.pairwise_cons.mp h).1 (1, 1) (by simp)
  exact lt_irrefl _ h01

/-- **C1** (witness): the positivity conjunct of `claim_c1_theorem`
instantiated at a concrete search result. -/
theorem claim_c1_witness :
    ((0, 1) : ℕ × ℝ) ∈ VectorIndex.search entriesCE vA 5 ∧
      (0 : ℝ) < (((0 : ℕ), (1 : ℝ))).2 := by
  have hmem : ((0, 1) : ℕ × ℝ) ∈ VectorIndex.search entriesCE vA 5 := by
    rw [search_entriesCE]
    simp
  exact ⟨hmem, (claim_c1_theorem entriesCE vA 5).2.2.1 _ hmem⟩

lemma normalize_counts_mass (counts : List (List Char × ℕ)) :
    normalize_counts counts = 0 ∨
      (normalize_counts counts).sum (fun _ v => v) = 1 := by
  unfold normalize_counts
  split
  · left; rfl
  · right
    rename_i htot
    have hT0 : (((counts.map Prod.snd).sum : ℕ) : ℝ) ≠ 0 :=
      Nat.cast_ne_zero.mpr htot
    have key : ∀ l : List (List Char × ℕ),
        ((l.map fun p =>
            Finsupp.single p.1
              ((p.2 : ℝ) / ((counts.map Prod.snd).sum : ℝ))).sum).sum
            (fun _ v => v) =
          (l.map fun p =>
            (p.2 : ℝ) / ((counts.map Prod.snd).sum : ℝ)).sum := by
      intro l
      induction l with
      | nil => simp
      | cons p t ih =>
        simp only [List.map_cons, List.sum_cons]
        rw [Finsupp.sum_add_index' (fun a => rfl) (fun a b1 b2 => rfl)]
        rw [Finsupp.sum_single_index rfl]
        rw [ih]
    rw [key]
    have key2 : ∀ (T : ℝ) (l : List (List Char × ℕ)),
        (l.map fun p => (p.2 : ℝ) / T).sum =
          (l.map fun p => (p.2 : ℝ)).sum / T := by
      intro T l
      induction l with
      | nil => simp
      | cons p t ih => simp [List.sum_cons, ih, add_div]
    rw [key2]
    have key3 : (counts.map fun p => (p.2 : ℝ)).sum =
        (((counts.map Prod.snd).sum : ℕ) : ℝ) := by
      rw [Nat.cast_list_sum, List.map_map]
      rfl
    rw [key3, div_self hT0]

/-- **C6**: TF embedding of `"foo foo bar"` with minimum frequency 1 weights
`"foo"` at 2/3 and `"bar"` at 1/3, and `"missing"` is absent (weight 0); in
general the embedding either is the empty vector (every token filtered out)
or its weights sum to 1. -/
theorem claim_c6_theorem :
    TfEmbedder.embed 1 "foo foo bar".toList "foo".toList = 2 / 3 ∧
      TfEmbedder.embed 1 "foo foo bar".toList "bar".toList = 1 / 3 ∧
      TfEmbedder.embed 1 "foo foo bar".toList "missing".toList = 0 ∧
      ∀ (min_freq : ℕ) (text : List Char),
        TfEmbedder.embed min_freq text = 0 ∨
          (TfEmbedder.embed min_freq text).sum (fun _ v => v) = 1 := by
  have hlist :
      (((tokenize "foo foo bar".toList).dedup.map fun t =>
          (t, (tokenize "foo foo bar".toList).count t)).filter
        fun p => decide (1 ≤ p.2)) =
      [("foo".toList, 2), ("bar".toList, 1)] := by decide
  have hembed : TfEmbedder.embed 1 "foo foo bar".toList =
      normalize_counts [("foo".toList, 2), ("bar".toList, 1)] := by
    unfold TfEmbedder.embed
    rw [hlist]
  have htotal : (([("foo".toList, 2), ("bar".toList, 1)] :
      List (List Char × ℕ)).map Prod.snd).sum = 3 := by decide
  have hnc : normalize_counts [("foo".toList, 2), ("bar".toList, 1)] =
      Finsupp.single "foo".toList ((2 : ℝ) / 3) +
        (Finsupp.single "bar".toList ((1 : ℝ) / 3) + 0) := by
    unfold normalize_counts
    rw [if_neg (by rw [htotal]; norm_num)]
    rw [htotal]
    norm_num
  have hne : "foo".toList ≠ "bar".toList := by decide
  have hne2 : "missing".toList ≠ "foo".toList := by decide
  have hne3 : "missing".toList ≠ "bar".toList := by decide
  refine ⟨?_, ?_, ?_, ?_⟩
  · rw [hembed, hnc]
    simp [Finsupp.single_eq_same, Finsupp.single_eq_of_ne (Ne.symm hne).symm,
      Finsupp.single_eq_of_ne hne.symm]
  · rw [hembed, hnc]
    simp [Finsupp.single_eq_same, Finsupp.single_eq_of_ne hne]
  · rw [hembed, hnc]
    simp [Finsupp.single_eq_of_ne hne2.symm, Finsupp.single_eq_of_ne hne3.symm]
  · intro min_freq text
    exact normalize_counts_mass _

lemma resolveMatches_ok_scores (st : State) (index : List IndexEntry) :
    ∀ l hits, resolveMatches st index l = .ok hits →
      hits.map SearchHit.score = l.map Prod.snd := by
  intro l
  induction l with
  | nil =>
    intro hits h
    simp only [resolveMatches] at h
    injection h with h
    subst h
    rfl
  | cons m rest ih =>
    intro hits h
    rcases m with ⟨idx, score⟩
    rw [resolveMatches] at h
    split at h
    · cases h
    · split at h
      · cases h
      · split at h
        · cases h
        · split at h
          · cases h
          · rename_i hits' hrec
            injection h with h
            subst h
            simp only [List.map_cons]
            rw [ih hits' hrec]

lemma resolveMatches_ok_of_resolves (st : State) (index : List IndexEntry) :
    ∀ l, (∀ m ∈ l, resolves st index m) →
      ∃ hits, resolveMatches st index l = .ok hits := by
  intro l
  induction l with
  | nil => intro _; exact ⟨[], rfl⟩
  | cons m rest ih =>
    intro hall
    obtain ⟨entry, hentry, hchunk, hdoc⟩ := hall m (List.mem_cons_self m rest)
    obtain ⟨hits', hrec⟩ := ih fun m' hm' => hall m' (List.mem_cons_of_mem m hm')
    rcases m with ⟨idx, score⟩
    rcases hc : st.find_chunk entry.chunk_id with _ | chunk
    · rw [hc] at hchunk; cases hchunk
    rcases hd : st.find_document entry.doc_id with _ | document
    · rw [hd] at hdoc; cases hdoc
    refine ⟨{ chunk := chunk, document := document, score := score } :: hits', ?_⟩
    rw [resolveMatches]
    simp only [hentry, hc, hd, hrec]

lemma resolveMatches_error_miss (st : State) (index : List IndexEntry) :
    ∀ l e, resolveMatches st index l = .error e →
      ∃ m ∈ l, ¬ resolves st index m := by
  intro l
  induction l with
  | nil =>
    intro e h
    simp only [resolveMatches] at h
    cases h
  | cons m rest ih =>
    intro e h
    rcases m with ⟨idx, score⟩
    rw [resolveMatches] at h
    split at h
    · rename_i hnone
      refine ⟨(idx, score), List.mem_cons_self _ _, ?_⟩
      rintro ⟨entry, hentry, -, -⟩
      rw [hnone] at hentry
      cases hentry
    · rename_i entry hentry
      split at h
      · rename_i hcnone
        refine ⟨(idx, score), List.mem_cons_self _ _, ?_⟩
        rintro ⟨entry', hentry', hchunk, -⟩
        rw [hentry] at hentry'
        injection hentry' with hentry'
        subst hentry'
        rw [hcnone] at hchunk
        cases hchunk
      · split at h
        · rename_i hdnone
          refine ⟨(idx, score), List.mem_cons_self _ _, ?_⟩
          rintro ⟨entry', hentry', -, hdoc⟩
          rw [hentry] at hentry'
          injection hentry' with hentry'
          subst hentry'
          rw [hdnone] at hdoc
          cases hdoc
        · split at h
          · rename_i e' hrec
            obtain ⟨m, hm, hnres⟩ := ih e' hrec
            exact ⟨m, List.mem_cons_of_mem _ hm, hnres⟩
          · cases h

lemma resolveMatches_ne_missing (st : State) (index : List IndexEntry) :
    ∀ l, (∀ m ∈ l, m.1 < index.length) →
      resolveMatches st index l ≠ .error "missing index entry for search result" := by
  intro l
  induction l with
  | nil =>
    intro _ h
    simp only [resolveMatches] at h
    cases h
  | cons m rest ih =>
    intro hlt h
    rcases m with ⟨idx, score⟩
    rw [resolveMatches] at h
    split at h
    · rename_i hnone
      have hidx := hlt (idx, score) (List.mem_cons_self _ _)
      rw [List.getElem?_eq_getElem hidx] at hnone
      cases hnone
    · split at h
      · injection h with h
        exact absurd h.symm (by decide)
      · split at h
        · injection h with h
          exact absurd h.symm (by decide)
        · split at h
          · rename_i e' hrec
            injection h with h
            subst h
            exact ih (fun m' hm' => hlt m' (List.mem_cons_of_mem _ hm')) hrec
          · cases h

lemma search_index_lt (entries : List IndexEntry) (query : SparseVector)
    (topK : ℕ) :
    ∀ p ∈ VectorIndex.search entries query topK, p.1 < entries.length := by
  intro p hp
  unfold VectorIndex.search at hp
  split at hp
  · simp at hp
  · have hp2 := List.take_subset _ _ hp
    have hp3 := (List.perm_insertionSort scoreGe _).subset hp2
    have hp4 := (List.mem_filter.mp hp3).1
    rcases List.mem_map.mp hp4 with ⟨ie, hie, hpe⟩
    have h5 : ie.1 < entries.length := List.fst_lt_of_mem_enum hie
    rw [← hpe]
    exact h5

lemma resolveMatches_ok_resolves (st : State) (index : List IndexEntry) :
    ∀ l hits, resolveMatches st index l = .ok hits →
      ∀ m ∈ l, resolves st index m := by
  intro l
  induction l with
  | nil =>
    intro hits _ m hm
    exact absurd hm (List.not_mem_nil m)
  | cons m0 rest ih =>
    intro hits h m hm
    rcases m0 with ⟨idx, score⟩
    rw [resolveMatches] at h
    split at h
    · cases h
    · rename_i entry hentry
      split at h
      · cases h
      · rename_i chunk hc
        split at h
        · cases h
        · rename_i document hd
          split at h
          · cases h
          · rename_i hits' hrec
            rcases List.mem_cons.mp hm with hm | hm
            · subst hm
              exact ⟨entry, hentry, by rw [hc]; rfl, by rw [hd]; rfl⟩
            · exact ih hits' hrec m hm

/-- **C8**: `search_hits` keeps exactly the index matches whose score is at
least the configured threshold (inclusive boundary; last conjunct).  Ok
results carry exactly the filtered match scores in order (conjunct 1) and
only arise when *every* surviving match resolved (conjunct 2); a surviving
match whose chunk or document lookup misses forces a fatal error (conjunct
3) — a miss is never silently skipped; conversely all-resolvable inputs
succeed (conjunct 4) and every error pinpoints a miss (conjunct 5). -/
theorem claim_c8_theorem (embed : List Char → SparseVector) (query : List Char)
    (topK : ℕ) (cfg : SearchConfig) (st : State) (index : List IndexEntry) :
    (∀ hits, search_hits embed query topK cfg st index = .ok hits →
        hits.map SearchHit.score =
          (filtered_matches embed query topK cfg index).map Prod.snd) ∧
      (∀ hits, search_hits embed query topK cfg st index = .ok hits →
        ∀ m ∈ filtered_matches embed query topK cfg index, resolves st index m) ∧
      (∀ m ∈ filtered_matches embed query topK cfg index, ¬ resolves st index m →
        ∃ e, search_hits embed query topK cfg st index = .error e) ∧
      ((∀ m ∈ filtered_matches embed query topK cfg index, resolves st index m) →
        ∃ hits, search_hits embed query topK cfg st index = .ok hits) ∧
      (∀ e, search_hits embed query topK cfg st index = .error e →
        ∃ m ∈ filtered_matches embed query topK cfg index, ¬ resolves st index m) ∧
      (∀ m ∈ VectorIndex.search index
          (embed (if cfg.normalize_query then normalizeText query else query))
          topK,
        (cfg.score_threshold ≤ m.2 ↔
          m ∈ filtered_matches embed query topK cfg index)) := by
  refine ⟨?_, ?_, ?_, ?_, ?_, ?_⟩
  · intro hits h
    exact resolveMatches_ok_scores st index _ hits h
  · intro hits h
    exact resolveMatches_ok_resolves st index _ hits h
  · intro m hm hnres
    rcases hr : search_hits embed query topK cfg st index with e | hits
    · exact ⟨e, rfl⟩
    · exact absurd (resolveMatches_ok_resolves st index _ hits hr m hm) hnres
  · intro hall
    exact resolveMatches_ok_of_resolves st index _ hall
  · intro e h
    exact resolveMatches_error_miss st index _ e h
  · intro m hm
    constructor
    · intro hth
      unfold filtered_matches
      rw [List.mem_filter]
      exact ⟨hm, decide_eq_true hth⟩
    · intro hmem
      unfold filtered_matches at hmem
      exact of_decide_eq_true (List.mem_filter.mp hmem).2

lemma filtered_matches_empty :
    filtered_matches embedZero ['q'] 3 cfgZero [] = [] := by
  unfold filtered_matches embedZero VectorIndex.search
  simp

lemma search_hits_empty :
    search_hits embedZero ['q'] 3 cfgZero stEmpty [] = .ok [] := by
  unfold search_hits
  rw [filtered_matches_empty]
  rfl

lemma filtered_matches_entriesCE :
    filtered_matches embedVA ['q'] 5 cfgZero entriesCE = [(0, 1), (1, 1)] := by
  unfold filtered_matches embedVA
  rw [search_entriesCE]
  norm_num [cfgZero, List.filter]

lemma not_resolves_entriesCE :
    ¬ resolves stEmpty entriesCE ((0, 1) : ℕ × ℝ) := by
  rintro ⟨entry, hentry, hchunk, -⟩
  have h0 : entriesCE[(((0, 1) : ℕ × ℝ)).1]? = some ⟨"c1", "d1", vA⟩ := by
    unfold entriesCE
    rfl
  rw [h0] at hentry
  injection hentry with hentry
  subst hentry
  simp [State.find_chunk, stEmpty, List.find?] at hchunk

/-- **C8** (witness): `claim_c8_theorem` instantiated at concrete corpora —
the empty corpus for the ok-direction conjuncts, and an index whose entry
references a chunk id missing from the (empty) corpus state for the
miss-is-fatal conjunct: the surviving match `(0, 1)` does not resolve, and
`search_hits` indeed returns an error. -/
theorem claim_c8_witness :
    (search_hits embedZero ['q'] 3 cfgZero stEmpty [] = .ok [] ∧
      ([] : List SearchHit).map SearchHit.score =
        (filtered_matches embedZero ['q'] 3 cfgZero []).map Prod.snd ∧
      (∀ m ∈ filtered_matches embedZero ['q'] 3 cfgZero [],
        resolves stEmpty [] m) ∧
      ∃ hits, search_hits embedZero ['q'] 3 cfgZero stEmpty [] = .ok hits) ∧
      (((0, 1) : ℕ × ℝ) ∈ filtered_matches embedVA ['q'] 5 cfgZero entriesCE ∧
        ¬ resolves stEmpty entriesCE ((0, 1) : ℕ × ℝ) ∧
        ∃ e, search_hits embedVA ['q'] 5 cfgZero stEmpty entriesCE = .error e) := by
  have hall : ∀ m ∈ filtered_matches embedZero ['q'] 3 cfgZero [],
      resolves stEmpty [] m := by
    rw [filtered_matches_empty]
    intro m hm
    exact absurd hm (List.not_mem_nil m)
  have hmem : ((0, 1) : ℕ × ℝ) ∈ filtered_matches embedVA ['q'] 5 cfgZero entriesCE := by
    rw [filtered_matches_entriesCE]
    simp
  refine ⟨⟨search_hits_empty, ?_, hall, ?_⟩, hmem, not_resolves_entriesCE, ?_⟩
  · exact (claim_c8_theorem embedZero ['q'] 3 cfgZero stEmpty []).1 []
      search_hits_empty
  · exact (claim_c8_theorem embedZero ['q'] 3 cfgZero stEmpty []).2.2.2.1 hall
  · exact (claim_c8_theorem embedVA ['q'] 5 cfgZero stEmpty entriesCE).2.2.1
      (0, 1) hmem not_resolves_entriesCE

/-- **C10**: every entry index returned by `VectorIndex::search` is strictly
below the number of stored entries (indices come from `enumerate` and
survive filtering, sorting and truncation), and consequently the
`"missing index entry for search result"` error branch of `search_hits` is
unreachable. -/
theorem claim_c10_theorem :
    (∀ (entries : List IndexEntry) (query : SparseVector) (topK : ℕ),
        ∀ p ∈ VectorIndex.search entries query topK, p.1 < entries.length) ∧
      ∀ (embed : List Char → SparseVector) (query : List Char) (topK : ℕ)
        (cfg : SearchConfig) (st : State) (index : List IndexEntry),
        search_hits embed query topK cfg st index ≠
          .error "missing index entry for search result" := by
  refine ⟨fun entries query topK => search_index_lt entries query topK, ?_⟩
  intro embed query topK cfg st index
  apply resolveMatches_ne_missing
  intro m hm
  unfold filtered_matches at hm
  exact search_index_lt index _ topK m (List.mem_filter.mp hm).1

/-- **C10** (witness): the bound instantiated at a concrete search result,
and the unreachable-error conclusion at a concrete corpus. -/
theorem claim_c10_witness :
    (((0, 1) : ℕ × ℝ) ∈ VectorIndex.search entriesCE vA 5 ∧
        (((0, 1) : ℕ × ℝ)).1 < entriesCE.length) ∧
      search_hits embedZero ['q'] 3 cfgZero stEmpty [] ≠
        .error "missing index entry for search result" := by
  have hmem : ((0, 1) : ℕ × ℝ) ∈ VectorIndex.search entriesCE vA 5 := by
    rw [search_entriesCE]
    simp
  exact ⟨⟨hmem, claim_c10_theorem.1 entriesCE vA 5 (0, 1) hmem⟩,
    claim_c10_theorem.2 embedZero ['q'] 3 cfgZero stEmpty []⟩

/-- **C9**: a single query expecting the term `"alpha"`, evaluated against
one retrieved chunk containing `"alpha"` at rank 1, scores
recall = 1, MRR = 1 and nDCG = 1. -/
theorem claim_c9_theorem :
    evaluate_query ["alpha".toList] ["alpha".toList] = (1, 1, 1) := by
  have hgo : evalGo (["alpha".toList].map toLowerStr) ["alpha".toList]
      (List.replicate (["alpha".toList].map toLowerStr).length false) 0 =
      ([true], [true], some 1) := by decide
  have hlogA : Real.logb 2 ((0 : ℝ) + 1 + 1) = 1 := by
    rw [show ((0 : ℝ) + 1 + 1) = 2 by norm_num]
    exact Real.logb_self_eq_one (by norm_num)
  have hndcg : compute_ndcg [true] 1 = 1 := by
    unfold compute_ndcg
    rw [if_neg one_ne_zero]
    have hideal : ((List.range 1).map fun idx : ℕ =>
        1 / Real.logb 2 ((idx : ℝ) + 1 + 1)).sum = 1 := by
      rw [show List.range 1 = [0] from rfl]
      simp only [List.map_cons, List.map_nil, List.sum_cons, List.sum_nil,
        Nat.cast_zero]
      rw [hlogA]
      norm_num
    have hactual : (([true] : List Bool).enum.map fun p =>
        if p.2 then 1 / Real.logb 2 ((p.1 : ℝ) + 1 + 1) else 0).sum = 1 := by
      rw [show ([true] : List Bool).enum = [(0, true)] from rfl]
      simp only [List.map_cons, List.map_nil, List.sum_cons, List.sum_nil,
        Nat.cast_zero, if_true]
      rw [hlogA]
      norm_num
    rw [hideal, hactual]
    norm_num
  have hc : List.count true [true] = 1 := rfl
  unfold evaluate_query
  rw [hgo]
  simp only [List.map_cons, List.map_nil, List.length_cons, List.length_nil]
  rw [hc, hndcg]
  norm_num

lemma build_context_single_hit :
    build_context ["alpha beta".toList] 3 = some "alp".toList := by decide
